import Mathlib

/-!
Verification of the dynamic-DNS updater in `src/main.rs` (alexfrydl/ddns-route53).

Shallow embedding conventions:
* Rust `String` values (domain names, zone names/ids, IPs) are modelled as `List Char`.
* The `HashMap<String, Domain>` is modelled as an association list in a fixed
  iteration order (the map is never structurally modified between the two loops
  of `update_dns`, so both loops see the same order).
* External effects are injected as oracles: the HTTP body returned by
  `https://api.ipify.org` (`Option (List Char)`, `none` = request failure), the
  Route 53 `list_hosted_zones` response (`Option (List HostedZone)`), and the
  outcome of each `change_resource_record_sets` call
  (`upsertOk : zone_id → name → ip → Bool`).
* `process::exit(1)` is modelled by the `StepResult.exited` constructor.
* Calls issued to Route 53 are recorded in a `PassTrace` so that claims about
  which provider calls a pass performs can be stated.
-/

namespace Ddns

/-- A Route 53 hosted zone as returned by `list_hosted_zones` (`name`, `id`). -/
structure HostedZone where
  name : List Char
  id : List Char
deriving DecidableEq

/-- Per-domain state, from `struct Domain` in `main.rs`. -/
structure Domain where
  needs_update : Bool
  zone_id : List Char
deriving DecidableEq

/-- `Domain::new()`: every configured domain starts stale with an empty zone id. -/
def Domain.new : Domain where
  needs_update := true
  zone_id := []

/-- The mutable application state, from `struct App` (the Route 53 client itself
is opaque and represented by the oracles passed to each step). -/
structure App where
  domains : List (List Char × Domain)
  is_daemon : Bool
  public_ip : List Char
deriving DecidableEq

/-- Result of a step that may call `process::exit`. -/
inductive StepResult (α : Type) where
  | ok (a : α)
  | exited (code : Nat)
deriving DecidableEq

/-- Rust `str::trim_end_matches('.')`: remove every trailing `'.'`. -/
def trimTrailingDots (s : List Char) : List Char :=
  (s.reverse.dropWhile (fun c => c == '.')).reverse

/-- Rust `str::strip_suffix(suf)`: `some rest` with `s = rest ++ suf` when `suf`
is a suffix of `s`, else `none`. -/
def stripSuffix (s suf : List Char) : Option (List Char) :=
  if suf <:+ s then some (s.take (s.length - suf.length)) else none

/-- The zone filter from `App::update_dns` (lines 173-176 of `main.rs`):
`name.strip_suffix(z.name.trim_end_matches('.'))` must yield a `rest` that is
empty or ends with `'.'`. -/
def qualifies (name zname : List Char) : Bool :=
  match stripSuffix name (trimTrailingDots zname) with
  | some rest => rest.isEmpty || rest.getLast? == some '.'
  | none => false

/-- One fold step of Rust `Iterator::max_by_key` (ties keep the later element). -/
def maxStep {α : Type} (key : α → Nat) (acc : Option α) (z : α) : Option α :=
  match acc with
  | none => some z
  | some m => if key m ≤ key z then some z else some m

/-- Rust `Iterator::max_by_key`: the last element with maximal key. -/
def maxByKey {α : Type} (key : α → Nat) (l : List α) : Option α :=
  l.foldl (maxStep key) none

/-- The zone-matching pipeline of `App::update_dns` (lines 170-178):
filter qualifying zones, then pick the one with the longest (raw) name. -/
def matchZone (name : List Char) (zones : List HostedZone) : Option HostedZone :=
  maxByKey (fun z => z.name.length) (zones.filter (fun z => qualifies name z.name))

/-- A decimal octet accepted by Rust's `Ipv4Addr` parser: digits only, no
leading zero (except the single digit `0`), value at most 255. -/
def validOctet (g : List Char) : Bool :=
  match g with
  | [] => false
  | [c] => c.isDigit
  | c :: _ => c.isDigit && !(c == '0') && g.all Char.isDigit &&
      g.foldl (fun a c2 => a * 10 + (c2.toNat - 48)) 0 ≤ 255

/-- Rust `ip_string.parse::<Ipv4Addr>()` viewed as a validity check: exactly
four `.`-separated valid octets. -/
def parseIpv4 (s : List Char) : Bool :=
  let gs := s.splitOn '.'
  gs.length == 4 && gs.all validOctet

/-- Rust `str::trim`: strip leading and trailing whitespace. -/
def trimWs (s : List Char) : List Char :=
  ((s.dropWhile Char.isWhitespace).reverse.dropWhile Char.isWhitespace).reverse

/-- The nested `get()` of `App::refresh_public_ip` (lines 125-133): on a
successful HTTP response `body`, truncate to 16 characters, trim whitespace,
and require the result to parse as an IPv4 address. -/
def getIp (raw : Option (List Char)) : Option (List Char) :=
  match raw with
  | none => none
  | some body =>
    let s := trimWs (body.take 16)
    if parseIpv4 s then some s else none

/-- The loop `for domain in self.domains.values_mut() { domain.needs_update = true }`. -/
def markAllStale (ds : List (List Char × Domain)) : List (List Char × Domain) :=
  ds.map (fun nd => (nd.1, { nd.2 with needs_update := true }))

/-- `App::refresh_public_ip` (lines 95-134): on success, mark all domains stale
when the IP changed and store the new IP; on failure, log and — in one-shot
mode — `exit(1)`. -/
def refresh_public_ip (app : App) (raw : Option (List Char)) : StepResult App :=
  match getIp raw with
  | some ip =>
    if ip ≠ app.public_ip then
      .ok { app with domains := markAllStale app.domains, public_ip := ip }
    else
      .ok { app with public_ip := ip }
  | none =>
    if app.is_daemon then .ok app else .exited 1

/-- The Route 53 change action; the SDK offers several, the code uses `Upsert`. -/
inductive ChangeAction where
  | create
  | delete
  | upsert
deriving DecidableEq

/-- The Route 53 record type; the SDK offers several, the code uses `A`. -/
inductive RrType where
  | a
  | aaaa
  | cname
  | txt
deriving DecidableEq

/-- One `change_resource_record_sets` request as built by the nested `upsert`
function of `App::update_dns` (lines 218-248). -/
structure UpsertCall where
  zone_id : List Char
  action : ChangeAction
  rrtype : RrType
  name : List Char
  value : List Char
  ttl : Nat
deriving DecidableEq

/-- The request constructed by `upsert(route53, zone_id, name, ip)`: action
`Upsert`, type `A`, TTL 300, single record value `ip`. -/
def mkUpsertCall (zone_id name ip : List Char) : UpsertCall where
  zone_id := zone_id
  action := .upsert
  rrtype := .a
  name := name
  value := ip
  ttl := 300

/-- Provider calls made during one `update_dns` invocation. -/
structure PassTrace where
  listedZones : Bool
  upsertCalls : List UpsertCall
deriving DecidableEq

/-- The per-domain effect of the zone-matching loop body (lines 165-190) when
it completes without exiting: stale domains get their `zone_id` overwritten by
the best match (kept unchanged when no zone qualifies), fresh domains are
skipped. -/
def matchDomain (zs : List HostedZone) (nd : List Char × Domain) :
    List Char × Domain :=
  if nd.2.needs_update then
    match matchZone nd.1 zs with
    | some z => (nd.1, { nd.2 with zone_id := z.id })
    | none => nd
  else nd

/-- The zone-matching loop of `App::update_dns` (lines 165-190): for every
stale domain, find the best zone and overwrite its `zone_id`; when no zone
qualifies, log and — in one-shot mode — `exit(1)`, in daemon mode `continue`. -/
def matchLoop (isDaemon : Bool) (zs : List HostedZone) :
    List (List Char × Domain) → StepResult (List (List Char × Domain))
  | [] => .ok []
  | nd :: rest =>
    if nd.2.needs_update then
      match matchZone nd.1 zs with
      | some z =>
        match matchLoop isDaemon zs rest with
        | .ok rest2 => .ok ((nd.1, { nd.2 with zone_id := z.id }) :: rest2)
        | .exited c => .exited c
      | none =>
        if isDaemon then
          match matchLoop isDaemon zs rest with
          | .ok rest2 => .ok (nd :: rest2)
          | .exited c => .exited c
        else .exited 1
    else
      match matchLoop isDaemon zs rest with
      | .ok rest2 => .ok (nd :: rest2)
      | .exited c => .exited c

/-- The guard of the record-update loop body (line 195): a domain is attempted
only when it is stale and has a non-empty `zone_id`. -/
def attempted (nd : List Char × Domain) : Bool :=
  nd.2.needs_update && !nd.2.zone_id.isEmpty

/-- The call the record-update loop issues for one attempted domain. -/
def callOf (ip : List Char) (nd : List Char × Domain) : Option UpsertCall :=
  if attempted nd then some (mkUpsertCall nd.2.zone_id nd.1 ip) else none

/-- The per-domain effect of the record-update loop body (lines 194-216) when
the loop completes without exiting: a successful upsert clears `needs_update`,
a failed one leaves the domain unchanged, skipped domains are unchanged. -/
def upsertDomain (upsertOk : List Char → List Char → List Char → Bool)
    (ip : List Char) (nd : List Char × Domain) : List Char × Domain :=
  if attempted nd then
    if upsertOk nd.2.zone_id nd.1 ip then (nd.1, { nd.2 with needs_update := false })
    else nd
  else nd

/-- The record-update loop of `App::update_dns` (lines 194-216), returning the
list of Route 53 requests issued (in order) together with the outcome. On a
failed upsert the code logs and — in one-shot mode — `exit(1)`, in daemon mode
leaves the domain stale. -/
def upsertLoop (isDaemon : Bool) (upsertOk : List Char → List Char → List Char → Bool)
    (ip : List Char) :
    List (List Char × Domain) → List UpsertCall × StepResult (List (List Char × Domain))
  | [] => ([], .ok [])
  | nd :: rest =>
    if attempted nd then
      let call := mkUpsertCall nd.2.zone_id nd.1 ip
      if upsertOk nd.2.zone_id nd.1 ip then
        match upsertLoop isDaemon upsertOk ip rest with
        | (calls, .ok rest2) =>
          (call :: calls, .ok ((nd.1, { nd.2 with needs_update := false }) :: rest2))
        | (calls, .exited c) => (call :: calls, .exited c)
      else
        if isDaemon then
          match upsertLoop isDaemon upsertOk ip rest with
          | (calls, .ok rest2) => (call :: calls, .ok (nd :: rest2))
          | (calls, .exited c) => (call :: calls, .exited c)
        else ([call], .exited 1)
    else
      match upsertLoop isDaemon upsertOk ip rest with
      | (calls, .ok rest2) => (calls, .ok (nd :: rest2))
      | (calls, .exited c) => (calls, .exited c)

/-- `App::update_dns` (lines 136-249): return immediately when no domain is
stale; otherwise list hosted zones (failure: `exit(1)` in one-shot mode, skip
in daemon mode), run the zone-matching loop, then the record-update loop. -/
def update_dns (app : App) (zonesR : Option (List HostedZone))
    (upsertOk : List Char → List Char → List Char → Bool) :
    PassTrace × StepResult App :=
  if !app.domains.any (fun nd => nd.2.needs_update) then
    (⟨false, []⟩, .ok app)
  else
    match zonesR with
    | none =>
      (⟨true, []⟩, if app.is_daemon then .ok app else .exited 1)
    | some zs =>
      match matchLoop app.is_daemon zs app.domains with
      | .exited c => (⟨true, []⟩, .exited c)
      | .ok ds1 =>
        match upsertLoop app.is_daemon upsertOk app.public_ip ds1 with
        | (calls, .ok ds2) => (⟨true, calls⟩, .ok { app with domains := ds2 })
        | (calls, .exited c) => (⟨true, calls⟩, .exited c)

/-- One iteration of `App::run` (lines 82-93): `refresh_public_ip` followed by
`update_dns`  (the latter runs even when IP resolution failed, provided the
process did not exit). -/
def pass (app : App) (raw : Option (List Char)) (zonesR : Option (List HostedZone))
    (upsertOk : List Char → List Char → List Char → Bool) :
    PassTrace × StepResult App :=
  match refresh_public_ip app raw with
  | .exited c => (⟨false, []⟩, .exited c)
  | .ok app1 => update_dns app1 zonesR upsertOk

/-- The domain-name validation loop of `App::new` (lines 63-69): reject any
name shorter than 3 characters or containing no `'.'`; the first invalid name
aborts startup (`bail!`). -/
def checkDomains : List (List Char) → Option (List (List Char × Domain))
  | [] => some []
  | n :: rest =>
    if n.length < 3 || !n.contains '.' then none
    else
      match checkDomains rest with
      | some ds => some ((n, Domain.new) :: ds)
      | none => none

/-- Outcome of `App::new`: the constructed `App` (if any) and whether the AWS
client was constructed (`aws_config::load_from_env` runs only after every
domain name passed validation). -/
structure NewResult where
  app : Option App
  clientConstructed : Bool

/-- `App::new` (lines 60-80): validate all domain names, then construct the
Route 53 client and the initial state (all domains stale, empty public IP). -/
def appNew (names : List (List Char)) (daemon : Bool) : NewResult :=
  match checkDomains names with
  | none => ⟨none, false⟩
  | some ds => ⟨some ⟨ds, daemon, []⟩, true⟩

/-- The stored public IP is either empty (never resolved) or a valid IPv4
string. -/
def validPublicIp (s : List Char) : Bool :=
  s.isEmpty || parseIpv4 s

/-! ### Helper lemmas -/

theorem stripSuffix_eq_some {s suf r : List Char} :
    stripSuffix s suf = some r ↔ s = r ++ suf := by
  unfold stripSuffix
  split
  case isTrue h =>
    obtain ⟨t, rfl⟩ := h
    have hx : (t ++ suf).take ((t ++ suf).length - suf.length) = t := by
      rw [List.length_append, Nat.add_sub_cancel]
      exact List.take_left t suf
    rw [hx, List.append_left_inj]
    simp
  case isFalse h =>
    constructor
    · intro hc
      simp at hc
    · intro he
      subst he
      exact absurd (List.suffix_append r suf) h

theorem qualifies_iff (d zn : List Char) :
    qualifies d zn = true ↔
      d = trimTrailingDots zn ∨ ('.' :: trimTrailingDots zn) <:+ d := by
  unfold qualifies
  generalize trimTrailingDots zn = z
  cases h : stripSuffix d z with
  | none =>
    simp only [h]
    constructor
    · intro hh
      simp at hh
    · rintro (heq | ⟨t, ht⟩)
      · have hz : stripSuffix d z = some [] := stripSuffix_eq_some.mpr (by simp [heq])
        rw [h] at hz
        simp at hz
      · have hz : stripSuffix d z = some (t ++ ['.']) := by
          refine stripSuffix_eq_some.mpr ?_
          rw [ht.symm]
          simp
        rw [h] at hz
        simp at hz
  | some rest =>
    have hd := stripSuffix_eq_some.mp h
    subst hd
    simp only [h]
    rcases List.eq_nil_or_concat' rest with rfl | ⟨pre, c, rfl⟩
    · simp
    · have h1 : (pre ++ [c]).isEmpty = false := by simp
      have h2 : (pre ++ [c]).getLast? = some c := by simp
      rw [h1, h2]
      simp only [Bool.false_or, beq_iff_eq, Option.some.injEq]
      constructor
      · rintro rfl
        exact Or.inr ⟨pre, by simp⟩
      · rintro (habs | ⟨t, ht⟩)
        · have := congrArg List.length habs
          simp at this
          omega
        · have ht2 : (t ++ ['.']) ++ z = (pre ++ [c]) ++ z := by simpa using ht
          have ht3 : t ++ ['.'] = pre ++ [c] := by rwa [List.append_left_inj] at ht2
          have hlast := congrArg List.getLast? ht3
          simp at hlast
          exact hlast.symm

theorem foldl_maxStep_some {α : Type} (key : α → Nat) :
    ∀ (l : List α) (m m' : α), l.foldl (maxStep key) (some m) = some m' →
      (m' = m ∨ m' ∈ l) ∧ key m ≤ key m' ∧ ∀ x ∈ l, key x ≤ key m' := by
  intro l
  induction l with
  | nil =>
    intro m m' h
    simp only [List.foldl_nil, Option.some.injEq] at h
    subst h
    simp
  | cons z l ih =>
    intro m m' h
    rw [List.foldl_cons] at h
    by_cases hk : key m ≤ key z
    · rw [show maxStep key (some m) z = some z by simp [maxStep, hk]] at h
      obtain ⟨hmem, hle, hall⟩ := ih z m' h
      refine ⟨?_, le_trans hk hle, ?_⟩
      · rcases hmem with rfl | hm
        · exact Or.inr (List.mem_cons_self _ _)
        · exact Or.inr (List.mem_cons_of_mem _ hm)
      · intro x hx
        rcases List.mem_cons.mp hx with rfl | hx2
        · exact hle
        · exact hall x hx2
    · rw [show maxStep key (some m) z = some m by simp [maxStep, hk]] at h
      obtain ⟨hmem, hle, hall⟩ := ih m m' h
      refine ⟨?_, hle, ?_⟩
      · rcases hmem with rfl | hm
        · exact Or.inl rfl
        · exact Or.inr (List.mem_cons_of_mem _ hm)
      · intro x hx
        rcases List.mem_cons.mp hx with rfl | hx2
        · exact le_trans (le_of_lt (Nat.lt_of_not_le hk)) hle
        · exact hall x hx2

theorem foldl_maxStep_isSome {α : Type} (key : α → Nat) :
    ∀ (l : List α) (m : α), ∃ m', l.foldl (maxStep key) (some m) = some m' := by
  intro l
  induction l with
  | nil => intro m; exact ⟨m, rfl⟩
  | cons z l ih =>
    intro m
    rw [List.foldl_cons]
    by_cases hk : key m ≤ key z
    · rw [show maxStep key (some m) z = some z by simp [maxStep, hk]]
      exact ih z
    · rw [show maxStep key (some m) z = some m by simp [maxStep, hk]]
      exact ih m

theorem maxByKey_spec {α : Type} (key : α → Nat) (l : List α) (m : α)
    (h : maxByKey key l = some m) : m ∈ l ∧ ∀ x ∈ l, key x ≤ key m := by
  cases l with
  | nil => simp [maxByKey] at h
  | cons z l =>
    have h2 : l.foldl (maxStep key) (some z) = some m := h
    obtain ⟨hmem, hz, hall⟩ := foldl_maxStep_some key l z m h2
    refine ⟨?_, ?_⟩
    · rcases hmem with rfl | hm
      · exact List.mem_cons_self _ _
      · exact List.mem_cons_of_mem _ hm
    · intro x hx
      rcases List.mem_cons.mp hx with rfl | hx2
      · exact hz
      · exact hall x hx2

theorem maxByKey_isSome {α : Type} (key : α → Nat) (l : List α) (hl : l ≠ []) :
    ∃ m, maxByKey key l = some m := by
  cases l with
  | nil => exact absurd rfl hl
  | cons z l => exact foldl_maxStep_isSome key l z

theorem matchDomain_fst (zs : List HostedZone) (nd : List Char × Domain) :
    (matchDomain zs nd).1 = nd.1 := by
  unfold matchDomain
  split
  · split <;> rfl
  · rfl

theorem matchDomain_needs (zs : List HostedZone) (nd : List Char × Domain) :
    (matchDomain zs nd).2.needs_update = nd.2.needs_update := by
  unfold matchDomain
  split
  · split <;> rfl
  · rfl

theorem upsertDomain_fst (upsertOk : List Char → List Char → List Char → Bool)
    (ip : List Char) (nd : List Char × Domain) :
    (upsertDomain upsertOk ip nd).1 = nd.1 := by
  unfold upsertDomain
  split
  · split <;> rfl
  · rfl

theorem upsertDomain_zone_id (upsertOk : List Char → List Char → List Char → Bool)
    (ip : List Char) (nd : List Char × Domain) :
    (upsertDomain upsertOk ip nd).2.zone_id = nd.2.zone_id := by
  unfold upsertDomain
  split
  · split <;> rfl
  · rfl

theorem upsertDomain_fresh_iff (upsertOk : List Char → List Char → List Char → Bool)
    (ip : List Char) (nd : List Char × Domain)
    (h : (upsertDomain upsertOk ip nd).2.needs_update = false) :
    nd.2.needs_update = false ∨ upsertOk nd.2.zone_id nd.1 ip = true := by
  unfold upsertDomain at h
  by_cases ha : attempted nd = true
  · rw [if_pos ha] at h
    by_cases hok : upsertOk nd.2.zone_id nd.1 ip = true
    · exact Or.inr hok
    · rw [if_neg hok] at h
      exact Or.inl h
  · rw [if_neg ha] at h
    exact Or.inl h

theorem upsertDomain_fail_stale (upsertOk : List Char → List Char → List Char → Bool)
    (ip : List Char) (nd : List Char × Domain)
    (hs : nd.2.needs_update = true) (hf : upsertOk nd.2.zone_id nd.1 ip = false) :
    (upsertDomain upsertOk ip nd).2.needs_update = true := by
  unfold upsertDomain
  by_cases ha : attempted nd = true
  · rw [if_pos ha, hf]
    simpa using hs
  · rw [if_neg ha]
    exact hs

theorem upsertDomain_skip (upsertOk : List Char → List Char → List Char → Bool)
    (ip : List Char) (nd : List Char × Domain) (hz : nd.2.zone_id = []) :
    upsertDomain upsertOk ip nd = nd ∧ callOf ip nd = none := by
  have ha : attempted nd = false := by simp [attempted, hz]
  constructor
  · unfold upsertDomain
    rw [ha]
    simp
  · unfold callOf
    rw [ha]
    simp

theorem matchDomain_stale_some (zs : List HostedZone) (nd : List Char × Domain) (z : HostedZone)
    (hs : nd.2.needs_update = true) (hz : matchZone nd.1 zs = some z) :
    matchDomain zs nd = (nd.1, { nd.2 with zone_id := z.id }) := by
  unfold matchDomain
  rw [if_pos hs, hz]

theorem matchDomain_stale_none (zs : List HostedZone) (nd : List Char × Domain)
    (hs : nd.2.needs_update = true) (hz : matchZone nd.1 zs = none) :
    matchDomain zs nd = nd := by
  unfold matchDomain
  rw [if_pos hs, hz]

theorem matchLoop_ok_eq (b : Bool) (zs : List HostedZone) :
    ∀ ds ds', matchLoop b zs ds = .ok ds' → ds' = ds.map (matchDomain zs) := by
  intro ds
  induction ds with
  | nil =>
    intro ds' h
    simp only [matchLoop, StepResult.ok.injEq] at h
    subst h
    simp
  | cons nd rest ih =>
    intro ds' h
    simp only [matchLoop] at h
    by_cases hu : nd.2.needs_update = true
    · rw [if_pos hu] at h
      cases hz : matchZone nd.1 zs with
      | some z =>
        rw [hz] at h
        cases hr : matchLoop b zs rest with
        | ok rest2 =>
          rw [hr] at h
          simp only [StepResult.ok.injEq] at h
          subst h
          simp [matchDomain_stale_some zs nd z hu hz, ih rest2 hr]
        | exited c =>
          rw [hr] at h
          simp at h
      | none =>
        rw [hz] at h
        by_cases hb : b = true
        · rw [if_pos hb] at h
          cases hr : matchLoop b zs rest with
          | ok rest2 =>
            rw [hr] at h
            simp only [StepResult.ok.injEq] at h
            subst h
            simp [matchDomain_stale_none zs nd hu hz, ih rest2 hr]
          | exited c =>
            rw [hr] at h
            simp at h
        · rw [if_neg hb] at h
          simp at h
    · rw [if_neg hu] at h
      cases hr : matchLoop b zs rest with
      | ok rest2 =>
        rw [hr] at h
        simp only [StepResult.ok.injEq] at h
        subst h
        have hmd : matchDomain zs nd = nd := by
          unfold matchDomain
          rw [if_neg hu]
        simp [hmd, ih rest2 hr]
      | exited c =>
        rw [hr] at h
        simp at h

theorem matchLoop_ok_of_all_match (b : Bool) (zs : List HostedZone) :
    ∀ ds, (∀ nd ∈ ds, nd.2.needs_update = true → matchZone nd.1 zs ≠ none) →
      matchLoop b zs ds = .ok (ds.map (matchDomain zs)) := by
  intro ds
  induction ds with
  | nil => intro _; simp [matchLoop]
  | cons nd rest ih =>
    intro hall
    have hrec := ih (fun nd2 h2 => hall nd2 (List.mem_cons_of_mem _ h2))
    simp only [matchLoop]
    by_cases hu : nd.2.needs_update = true
    · rw [if_pos hu]
      cases hz : matchZone nd.1 zs with
      | some z =>
        rw [hrec]
        simp [matchDomain_stale_some zs nd z hu hz]
      | none =>
        exact absurd hz (hall nd (List.mem_cons_self _ _) hu)
    · rw [if_neg hu, hrec]
      have hmd : matchDomain zs nd = nd := by
        unfold matchDomain
        rw [if_neg hu]
      simp [hmd]

theorem matchLoop_daemon_ok (zs : List HostedZone) (ds : List (List Char × Domain)) :
    ∃ ds', matchLoop true zs ds = .ok ds' := by
  induction ds with
  | nil => exact ⟨[], rfl⟩
  | cons nd rest ih =>
    obtain ⟨rest2, hr⟩ := ih
    simp only [matchLoop]
    by_cases hu : nd.2.needs_update = true
    · rw [if_pos hu]
      cases hz : matchZone nd.1 zs with
      | some z =>
        rw [hr]
        exact ⟨_, rfl⟩
      | none =>
        refine ⟨nd :: rest2, ?_⟩
        simp [hr]
    · rw [if_neg hu, hr]
      exact ⟨_, rfl⟩

theorem matchLoop_oneshot_exit (zs : List HostedZone) :
    ∀ ds, (∃ nd ∈ ds, nd.2.needs_update = true ∧ matchZone nd.1 zs = none) →
      matchLoop false zs ds = .exited 1 := by
  intro ds
  induction ds with
  | nil =>
    rintro ⟨nd, hmem, _⟩
    simp at hmem
  | cons nd0 rest ih =>
    rintro ⟨nd, hmem, hu, hz⟩
    rcases List.mem_cons.mp hmem with rfl | hmem2
    · simp only [matchLoop]
      rw [if_pos hu, hz]
      simp
    · have hrec := ih ⟨nd, hmem2, hu, hz⟩
      simp only [matchLoop]
      by_cases hu0 : nd0.2.needs_update = true
      · rw [if_pos hu0]
        cases hz0 : matchZone nd0.1 zs with
        | some z => rw [hrec]
        | none => simp
      · rw [if_neg hu0, hrec]

theorem upsertLoop_ok_eq (b : Bool) (upsertOk : List Char → List Char → List Char → Bool)
    (ip : List Char) :
    ∀ ds calls ds', upsertLoop b upsertOk ip ds = (calls, .ok ds') →
      ds' = ds.map (upsertDomain upsertOk ip) ∧ calls = ds.filterMap (callOf ip) := by
  intro ds
  induction ds with
  | nil =>
    intro calls ds' h
    simp only [upsertLoop, Prod.mk.injEq, StepResult.ok.injEq] at h
    obtain ⟨h1, h2⟩ := h
    subst h1
    subst h2
    simp
  | cons nd rest ih =>
    intro calls ds' h
    simp only [upsertLoop] at h
    by_cases ha : attempted nd = true
    · rw [if_pos ha] at h
      by_cases hok : upsertOk nd.2.zone_id nd.1 ip = true
      · rw [if_pos hok] at h
        rcases hr : upsertLoop b upsertOk ip rest with ⟨calls0, r⟩
        rw [hr] at h
        cases r with
        | ok rest2 =>
          simp only [Prod.mk.injEq, StepResult.ok.injEq] at h
          obtain ⟨hc, hd⟩ := h
          obtain ⟨hm1, hm2⟩ := ih calls0 rest2 hr
          subst hc
          subst hd
          constructor
          · simp [upsertDomain, ha, hok, hm1]
          · simp [callOf, ha, hm2]
        | exited c => simp at h
      · rw [if_neg hok] at h
        by_cases hb : b = true
        · rw [if_pos hb] at h
          rcases hr : upsertLoop b upsertOk ip rest with ⟨calls0, r⟩
          rw [hr] at h
          cases r with
          | ok rest2 =>
            simp only [Prod.mk.injEq, StepResult.ok.injEq] at h
            obtain ⟨hc, hd⟩ := h
            obtain ⟨hm1, hm2⟩ := ih calls0 rest2 hr
            subst hc
            subst hd
            constructor
            · simp [upsertDomain, ha, hok, hm1]
            · simp [callOf, ha, hm2]
          | exited c => simp at h
        · rw [if_neg hb] at h
          simp at h
    · rw [if_neg ha] at h
      rcases hr : upsertLoop b upsertOk ip rest with ⟨calls0, r⟩
      rw [hr] at h
      cases r with
      | ok rest2 =>
        simp only [Prod.mk.injEq, StepResult.ok.injEq] at h
        obtain ⟨hc, hd⟩ := h
        obtain ⟨hm1, hm2⟩ := ih calls0 rest2 hr
        subst hc
        subst hd
        constructor
        · simp [upsertDomain, ha, hm1]
        · simp [callOf, ha, hm2]
      | exited c => simp at h

theorem upsertLoop_daemon_ok (upsertOk : List Char → List Char → List Char → Bool)
    (ip : List Char) :
    ∀ ds, ∃ calls ds', upsertLoop true upsertOk ip ds = (calls, .ok ds') := by
  intro ds
  induction ds with
  | nil => exact ⟨[], [], rfl⟩
  | cons nd rest ih =>
    obtain ⟨calls0, ds0, hr⟩ := ih
    simp only [upsertLoop]
    by_cases ha : attempted nd = true
    · rw [if_pos ha]
      by_cases hok : upsertOk nd.2.zone_id nd.1 ip = true
      · rw [if_pos hok, hr]
        exact ⟨_, _, rfl⟩
      · rw [if_neg hok]
        refine ⟨mkUpsertCall nd.2.zone_id nd.1 ip :: calls0, nd :: ds0, ?_⟩
        simp [hr]
    · rw [if_neg ha, hr]
      exact ⟨_, _, rfl⟩

theorem upsertLoop_oneshot_exit (upsertOk : List Char → List Char → List Char → Bool)
    (ip : List Char) :
    ∀ ds, (∃ nd ∈ ds, attempted nd = true ∧ upsertOk nd.2.zone_id nd.1 ip = false) →
      ∃ calls, upsertLoop false upsertOk ip ds = (calls, .exited 1) := by
  intro ds
  induction ds with
  | nil =>
    rintro ⟨nd, hmem, _⟩
    simp at hmem
  | cons nd0 rest ih =>
    rintro ⟨nd, hmem, ha, hf⟩
    rcases List.mem_cons.mp hmem with rfl | hmem2
    · refine ⟨[mkUpsertCall nd.2.zone_id nd.1 ip], ?_⟩
      simp only [upsertLoop]
      rw [if_pos ha, hf]
      simp
    · by_cases ha0 : attempted nd0 = true
      · by_cases hok0 : upsertOk nd0.2.zone_id nd0.1 ip = true
        · obtain ⟨calls0, hr⟩ := ih ⟨nd, hmem2, ha, hf⟩
          refine ⟨mkUpsertCall nd0.2.zone_id nd0.1 ip :: calls0, ?_⟩
          simp only [upsertLoop]
          rw [if_pos ha0, if_pos hok0, hr]
        · refine ⟨[mkUpsertCall nd0.2.zone_id nd0.1 ip], ?_⟩
          simp only [upsertLoop]
          rw [if_pos ha0, if_neg hok0]
          simp
      · obtain ⟨calls0, hr⟩ := ih ⟨nd, hmem2, ha, hf⟩
        refine ⟨calls0, ?_⟩
        simp only [upsertLoop]
        rw [if_neg ha0, hr]

theorem upsertLoop_calls_shape (b : Bool) (upsertOk : List Char → List Char → List Char → Bool)
    (ip : List Char) :
    ∀ ds c, c ∈ (upsertLoop b upsertOk ip ds).1 → ∃ zid n, c = mkUpsertCall zid n ip := by
  intro ds
  induction ds with
  | nil =>
    intro c hc
    simp [upsertLoop] at hc
  | cons nd rest ih =>
    intro c hc
    simp only [upsertLoop] at hc
    by_cases ha : attempted nd = true
    · rw [if_pos ha] at hc
      by_cases hok : upsertOk nd.2.zone_id nd.1 ip = true
      · rw [if_pos hok] at hc
        rcases hr : upsertLoop b upsertOk ip rest with ⟨calls0, r⟩
        rw [hr] at hc
        cases r with
        | ok rest2 =>
          rcases List.mem_cons.mp hc with rfl | hc2
          · exact ⟨_, _, rfl⟩
          · exact ih c (by rw [hr]; exact hc2)
        | exited c2 =>
          rcases List.mem_cons.mp hc with rfl | hc2
          · exact ⟨_, _, rfl⟩
          · exact ih c (by rw [hr]; exact hc2)
      · rw [if_neg hok] at hc
        by_cases hb : b = true
        · rw [if_pos hb] at hc
          rcases hr : upsertLoop b upsertOk ip rest with ⟨calls0, r⟩
          rw [hr] at hc
          cases r with
          | ok rest2 =>
            rcases List.mem_cons.mp hc with rfl | hc2
            · exact ⟨_, _, rfl⟩
            · exact ih c (by rw [hr]; exact hc2)
          | exited c2 =>
            rcases List.mem_cons.mp hc with rfl | hc2
            · exact ⟨_, _, rfl⟩
            · exact ih c (by rw [hr]; exact hc2)
        · rw [if_neg hb] at hc
          rcases List.mem_singleton.mp hc with rfl
          exact ⟨_, _, rfl⟩
    · rw [if_neg ha] at hc
      rcases hr : upsertLoop b upsertOk ip rest with ⟨calls0, r⟩
      rw [hr] at hc
      cases r with
      | ok rest2 => exact ih c (by rw [hr]; exact hc)
      | exited c2 => exact ih c (by rw [hr]; exact hc)

theorem update_dns_no_stale (app : App) (zonesR : Option (List HostedZone))
    (upsertOk : List Char → List Char → List Char → Bool)
    (hfresh : (app.domains.any fun nd => nd.2.needs_update) = false) :
    update_dns app zonesR upsertOk = (⟨false, []⟩, .ok app) := by
  unfold update_dns
  rw [hfresh]
  simp

theorem update_dns_ok_cases (app : App) (zonesR : Option (List HostedZone))
    (upsertOk : List Char → List Char → List Char → Bool) (tr : PassTrace) (app2 : App)
    (h : update_dns app zonesR upsertOk = (tr, .ok app2)) :
    app2.public_ip = app.public_ip ∧ app2.is_daemon = app.is_daemon ∧
    (((app.domains.any fun nd => nd.2.needs_update) = false ∧ app2 = app ∧
        tr = ⟨false, []⟩) ∨
     ((app.domains.any fun nd => nd.2.needs_update) = true ∧ zonesR = none ∧
        app2 = app ∧ tr = ⟨true, []⟩) ∨
     (∃ zs, (app.domains.any fun nd => nd.2.needs_update) = true ∧ zonesR = some zs ∧
        app2.domains =
          (app.domains.map (matchDomain zs)).map (upsertDomain upsertOk app.public_ip) ∧
        tr.upsertCalls =
          (app.domains.map (matchDomain zs)).filterMap (callOf app.public_ip))) := by
  unfold update_dns at h
  by_cases hs : (app.domains.any fun nd => nd.2.needs_update) = true
  · rw [hs] at h
    rw [if_neg (by simp)] at h
    cases zonesR with
    | none =>
      by_cases hd : app.is_daemon = true
      · rw [if_pos hd] at h
        simp only [Prod.mk.injEq, StepResult.ok.injEq] at h
        obtain ⟨htr, happ⟩ := h
        subst happ
        exact ⟨rfl, rfl, Or.inr (Or.inl ⟨hs, rfl, rfl, htr.symm⟩)⟩
      · rw [if_neg hd] at h
        simp at h
    | some zs =>
      dsimp only at h
      cases hm : matchLoop app.is_daemon zs app.domains with
      | exited c =>
        rw [hm] at h
        simp at h
      | ok ds1 =>
        rw [hm] at h
        dsimp only at h
        rcases hu : upsertLoop app.is_daemon upsertOk app.public_ip ds1 with ⟨calls, r⟩
        rw [hu] at h
        cases r with
        | ok ds2 =>
          simp only [Prod.mk.injEq, StepResult.ok.injEq] at h
          obtain ⟨htr, happ⟩ := h
          have hds1 := matchLoop_ok_eq _ _ _ _ hm
          obtain ⟨hds2, hcalls⟩ := upsertLoop_ok_eq _ _ _ _ _ _ hu
          subst happ
          refine ⟨rfl, rfl, Or.inr (Or.inr ⟨zs, hs, rfl, ?_, ?_⟩)⟩
          · rw [show ({ app with domains := ds2 } : App).domains = ds2 from rfl, hds2, hds1]
          · rw [htr.symm, hcalls, hds1]
        | exited c =>
          simp at h
  · have hs2 : (app.domains.any fun nd => nd.2.needs_update) = false := by
      cases hq : app.domains.any fun nd => nd.2.needs_update
      · rfl
      · exact absurd hq hs
    rw [hs2] at h
    rw [if_pos (by simp)] at h
    simp only [Prod.mk.injEq, StepResult.ok.injEq] at h
    obtain ⟨htr, happ⟩ := h
    subst happ
    exact ⟨rfl, rfl, Or.inl ⟨hs2, rfl, htr.symm⟩⟩

theorem update_dns_calls_shape (app : App) (zonesR : Option (List HostedZone))
    (upsertOk : List Char → List Char → List Char → Bool) :
    ∀ c ∈ (update_dns app zonesR upsertOk).1.upsertCalls,
      ∃ zid n, c = mkUpsertCall zid n app.public_ip := by
  intro c hc
  unfold update_dns at hc
  by_cases hs : (app.domains.any fun nd => nd.2.needs_update) = true
  · rw [hs] at hc
    rw [if_neg (by simp)] at hc
    cases zonesR with
    | none => simp at hc
    | some zs =>
      dsimp only at hc
      cases hm : matchLoop app.is_daemon zs app.domains with
      | exited c2 =>
        rw [hm] at hc
        simp at hc
      | ok ds1 =>
        rw [hm] at hc
        dsimp only at hc
        rcases hu : upsertLoop app.is_daemon upsertOk app.public_ip ds1 with ⟨calls, r⟩
        rw [hu] at hc
        cases r with
        | ok ds2 =>
          refine upsertLoop_calls_shape app.is_daemon upsertOk app.public_ip ds1 c ?_
          rw [hu]
          exact hc
        | exited c2 =>
          refine upsertLoop_calls_shape app.is_daemon upsertOk app.public_ip ds1 c ?_
          rw [hu]
          exact hc
  · have hs2 : (app.domains.any fun nd => nd.2.needs_update) = false := by
      cases hq : app.domains.any fun nd => nd.2.needs_update
      · rfl
      · exact absurd hq hs
    rw [hs2] at hc
    rw [if_pos (by simp)] at hc
    simp at hc

theorem refresh_same_ip (app : App) (raw : Option (List Char))
    (h : getIp raw = some app.public_ip) :
    refresh_public_ip app raw = .ok app := by
  unfold refresh_public_ip
  rw [h]
  dsimp only
  rw [if_neg (by simp)]

theorem refresh_none_daemon (app : App) (raw : Option (List Char))
    (hd : app.is_daemon = true) (h : getIp raw = none) :
    refresh_public_ip app raw = .ok app := by
  unfold refresh_public_ip
  rw [h, if_pos hd]

theorem refresh_none_oneshot (app : App) (raw : Option (List Char))
    (hd : app.is_daemon = false) (h : getIp raw = none) :
    refresh_public_ip app raw = .exited 1 := by
  unfold refresh_public_ip
  rw [h]
  rw [if_neg (by simp [hd])]

theorem refresh_getIp_some (app : App) (raw : Option (List Char)) (ip : List Char)
    (h : getIp raw = some ip) :
    ∃ app1, refresh_public_ip app raw = .ok app1 ∧ app1.public_ip = ip ∧
      app1.is_daemon = app.is_daemon ∧
      (∀ nd ∈ app.domains, nd.2.needs_update = true → nd ∈ app1.domains) ∧
      ((app.domains.any fun nd => nd.2.needs_update) = true →
        (app1.domains.any fun nd => nd.2.needs_update) = true) := by
  unfold refresh_public_ip
  rw [h]
  dsimp only
  by_cases hip : ip ≠ app.public_ip
  · rw [if_pos hip]
    refine ⟨_, rfl, rfl, rfl, ?_, ?_⟩
    · rintro ⟨n, nu, zid⟩ hmem hstale
      have hnu : nu = true := hstale
      subst hnu
      exact List.mem_map.mpr ⟨(n, ⟨true, zid⟩), hmem, rfl⟩
    · intro hany
      obtain ⟨nd, hmem, hstale⟩ := List.any_eq_true.mp hany
      refine List.any_eq_true.mpr ⟨(nd.1, { nd.2 with needs_update := true }), ?_, by simp⟩
      exact List.mem_map.mpr ⟨nd, hmem, rfl⟩
  · rw [if_neg hip]
    have hip2 : ip = app.public_ip := by
      by_cases hq : ip = app.public_ip
      · exact hq
      · exact absurd hq hip
    refine ⟨_, rfl, rfl, rfl, fun nd hmem _ => hmem, fun hany => hany⟩

theorem refresh_daemon_ok (app : App) (raw : Option (List Char))
    (hd : app.is_daemon = true) :
    ∃ app1, refresh_public_ip app raw = .ok app1 ∧ app1.is_daemon = true := by
  cases h : getIp raw with
  | none => exact ⟨app, refresh_none_daemon app raw hd h, hd⟩
  | some ip =>
    obtain ⟨app1, h1, _, h3, _⟩ := refresh_getIp_some app raw ip h
    exact ⟨app1, h1, by rw [h3, hd]⟩

theorem update_dns_daemon_ok (app : App) (zonesR : Option (List HostedZone))
    (upsertOk : List Char → List Char → List Char → Bool) (hd : app.is_daemon = true) :
    ∃ tr app2, update_dns app zonesR upsertOk = (tr, .ok app2) := by
  by_cases hs : (app.domains.any fun nd => nd.2.needs_update) = true
  · unfold update_dns
    rw [hs]
    rw [if_neg (by simp)]
    cases zonesR with
    | none =>
      rw [if_pos hd]
      exact ⟨_, _, rfl⟩
    | some zs =>
      dsimp only
      rw [hd]
      obtain ⟨ds1, hm⟩ := matchLoop_daemon_ok zs app.domains
      rw [hm]
      dsimp only
      obtain ⟨calls, ds2, hu⟩ := upsertLoop_daemon_ok upsertOk app.public_ip ds1
      rw [hu]
      exact ⟨_, _, rfl⟩
  · have hs2 : (app.domains.any fun nd => nd.2.needs_update) = false := by
      cases hq : app.domains.any fun nd => nd.2.needs_update
      · rfl
      · exact absurd hq hs
    exact ⟨_, _, update_dns_no_stale app zonesR upsertOk hs2⟩

/-! ### Claim theorems -/

theorem getIp_parse (raw : Option (List Char)) (ip : List Char)
    (h : getIp raw = some ip) : parseIpv4 ip = true := by
  cases raw with
  | none => exact Option.noConfusion h
  | some body =>
    simp only [getIp] at h
    split at h
    case isTrue hp =>
      injection h with h2
      rw [← h2]
      exact hp
    case isFalse hp => exact Option.noConfusion h

theorem refresh_valid (app : App) (raw : Option (List Char)) (app1 : App)
    (h : refresh_public_ip app raw = .ok app1)
    (hv : validPublicIp app.public_ip = true) :
    validPublicIp app1.public_ip = true := by
  unfold refresh_public_ip at h
  cases hg : getIp raw with
  | none =>
    rw [hg] at h
    dsimp only at h
    split at h
    · injection h with h2
      rw [← h2]
      exact hv
    · exact StepResult.noConfusion h
  | some ip =>
    have hp := getIp_parse raw ip hg
    rw [hg] at h
    dsimp only at h
    split at h
    · injection h with h2
      rw [← h2]
      simp [validPublicIp, hp]
    · injection h with h2
      rw [← h2]
      simp [validPublicIp, hp]

theorem refresh_none_eq (app : App) (raw : Option (List Char)) (app1 : App)
    (hg : getIp raw = none) (h : refresh_public_ip app raw = .ok app1) : app1 = app := by
  unfold refresh_public_ip at h
  rw [hg] at h
  dsimp only at h
  split at h
  · injection h with h2
    exact h2.symm
  · exact StepResult.noConfusion h

theorem checkDomains_eq_none_iff (names : List (List Char)) :
    checkDomains names = none ↔
      ∃ n ∈ names, n.length < 3 ∨ n.contains '.' = false := by
  induction names with
  | nil => simp [checkDomains]
  | cons n rest ih =>
    simp only [checkDomains]
    constructor
    · intro h
      by_cases hc : (decide (n.length < 3) || !n.contains '.') = true
      · refine ⟨n, List.mem_cons_self _ _, ?_⟩
        simpa [decide_eq_true_eq, Bool.not_eq_true'] using hc
      · rw [if_neg hc] at h
        cases hr : checkDomains rest with
        | some ds =>
          rw [hr] at h
          simp at h
        | none =>
          obtain ⟨n2, hmem, hbad⟩ := ih.mp hr
          exact ⟨n2, List.mem_cons_of_mem _ hmem, hbad⟩
    · rintro ⟨n2, hmem, hbad⟩
      rcases List.mem_cons.mp hmem with rfl | hmem2
      · rw [if_pos (by simpa [decide_eq_true_eq, Bool.not_eq_true'] using hbad)]
      · by_cases hc : (decide (n.length < 3) || !n.contains '.') = true
        · rw [if_pos hc]
        · rw [if_neg hc]
          rw [ih.mpr ⟨n2, hmem2, hbad⟩]

/-- **C1.** Zone matching is label-boundary-exact: writing `z` for the zone's
name with trailing dots stripped, a zone qualifies for domain `d` iff `d = z`
or `d` ends with `'.'` followed by `z`; a non-label-boundary suffix (such as
`z = "example.com"`, `d = "notexample.com"`) never qualifies. -/
theorem claim1_zone_match_label_boundary (d zn : List Char) :
    qualifies d zn = true ↔
      d = trimTrailingDots zn ∨ ('.' :: trimTrailingDots zn) <:+ d :=
  qualifies_iff d zn

/-- **C4.** Among the zones that qualify for a domain name, the matcher picks
one with maximal name length; it returns a zone exactly when some zone
qualifies; and when one qualifying zone is strictly longest it is the one
selected (in particular `dev.example.com` beats `example.com` for
`api.dev.example.com`, as the witness instantiates). -/
theorem claim4_longest_zone_selected (d : List Char) (zs : List HostedZone) :
    (∀ z, matchZone d zs = some z →
      z ∈ zs ∧ qualifies d z.name = true ∧
      ∀ z2 ∈ zs, qualifies d z2.name = true → z2.name.length ≤ z.name.length) ∧
    ((∃ z ∈ zs, qualifies d z.name = true) → ∃ z, matchZone d zs = some z) ∧
    (∀ z ∈ zs, qualifies d z.name = true →
      (∀ z2 ∈ zs, qualifies d z2.name = true → z2 ≠ z → z2.name.length < z.name.length) →
      matchZone d zs = some z) := by
  have hsel : ∀ z, matchZone d zs = some z →
      z ∈ zs ∧ qualifies d z.name = true ∧
      ∀ z2 ∈ zs, qualifies d z2.name = true → z2.name.length ≤ z.name.length := by
    intro z hz
    unfold matchZone at hz
    obtain ⟨hmem, hall⟩ := maxByKey_spec _ _ _ hz
    have hmem2 := List.mem_filter.mp hmem
    refine ⟨hmem2.1, hmem2.2, ?_⟩
    intro z2 hz2 hq2
    exact hall z2 (List.mem_filter.mpr ⟨hz2, hq2⟩)
  have hex : (∃ z ∈ zs, qualifies d z.name = true) → ∃ z, matchZone d zs = some z := by
    rintro ⟨z, hz, hq⟩
    have hne : zs.filter (fun z => qualifies d z.name) ≠ [] := by
      intro hnil
      have hmem : z ∈ zs.filter (fun z => qualifies d z.name) :=
        List.mem_filter.mpr ⟨hz, hq⟩
      rw [hnil] at hmem
      simp at hmem
    unfold matchZone
    exact maxByKey_isSome _ _ hne
  refine ⟨hsel, hex, ?_⟩
  intro z hz hq hstrict
  obtain ⟨m, hm⟩ := hex ⟨z, hz, hq⟩
  obtain ⟨hmmem, hmq, hmall⟩ := hsel m hm
  by_cases hem : m = z
  · rw [hem] at hm
    exact hm
  · exfalso
    have h1 : m.name.length < z.name.length := hstrict m hmmem hmq hem
    have h2 : z.name.length ≤ m.name.length := hmall z hz hq
    omega

/-- Witness for C4 at the spec's concrete instance: `dev.example.com` is
selected over `example.com` for domain `api.dev.example.com`. -/
theorem claim4_witness :
    matchZone (String.toList "api.dev.example.com")
      [⟨String.toList "example.com", String.toList "Z1"⟩,
       ⟨String.toList "dev.example.com", String.toList "Z2"⟩] =
      some ⟨String.toList "dev.example.com", String.toList "Z2"⟩ :=
  (claim4_longest_zone_selected (String.toList "api.dev.example.com")
      [⟨String.toList "example.com", String.toList "Z1"⟩,
       ⟨String.toList "dev.example.com", String.toList "Z2"⟩]).2.2
    ⟨String.toList "dev.example.com", String.toList "Z2"⟩
    (by decide) (by decide) (by decide)

/-- **C2 counterexample.** In daemon mode, with one stale domain and a failed
IP resolution (`raw = none`), the pass is *not* skipped: the zone listing
happens (`listedZones = true`), the domain is matched to `Z1`, and an upsert
is issued carrying the stale public IP — here the empty string. This refutes
the claim that no zone listing, matching, or upsert is attempted in such a
pass. -/
theorem claim2_cex_pass_not_skipped_on_ip_failure :
    pass ⟨[(String.toList "www.example.com", ⟨true, []⟩)], true, []⟩ none
      (some [⟨String.toList "example.com", String.toList "Z1"⟩]) (fun _ _ _ => false) =
    (⟨true, [⟨String.toList "Z1", ChangeAction.upsert, RrType.a,
        String.toList "www.example.com", [], 300⟩]⟩,
     .ok ⟨[(String.toList "www.example.com", ⟨true, String.toList "Z1"⟩)], true, []⟩) := by
  decide

/-- **C2 amended.** In daemon mode, when public-IP resolution fails, the
refresh step leaves the state unchanged and the pass *continues* into
`update_dns` with the previously stored IP; only when no domain is stale does
the pass perform no zone listing and no upsert. -/
theorem claim2_amended_ip_failure_daemon (app : App) (raw : Option (List Char))
    (zonesR : Option (List HostedZone))
    (upsertOk : List Char → List Char → List Char → Bool)
    (hd : app.is_daemon = true) (hfail : getIp raw = none) :
    refresh_public_ip app raw = .ok app ∧
    pass app raw zonesR upsertOk = update_dns app zonesR upsertOk ∧
    ((app.domains.any fun nd => nd.2.needs_update) = false →
      pass app raw zonesR upsertOk = (⟨false, []⟩, .ok app)) := by
  have h1 := refresh_none_daemon app raw hd hfail
  refine ⟨h1, ?_, ?_⟩
  · unfold pass
    rw [h1]
  · intro hfresh
    unfold pass
    rw [h1]
    exact update_dns_no_stale app zonesR upsertOk hfresh

/-- Witness for the amended C2: a daemon pass with failed IP resolution and no
stale domain performs no provider call. -/
theorem claim2_amended_witness :
    pass ⟨[(String.toList "a.example.com", ⟨false, String.toList "Z1"⟩)], true,
        String.toList "1.2.3.4"⟩ none none (fun _ _ _ => true) =
    (⟨false, []⟩,
     .ok ⟨[(String.toList "a.example.com", ⟨false, String.toList "Z1"⟩)], true,
        String.toList "1.2.3.4"⟩) :=
  (claim2_amended_ip_failure_daemon _ none none _ rfl rfl).2.2 (by decide)

/-- **C3 counterexample.** A stale domain whose `zone_id` is already set
(`"OLD"`) *is* re-matched: `update_dns` overwrites its zone id with the fresh
match (`"NEW"`) even though the old id was non-empty, refuting the claim that
the Zone Matcher runs only for stale domains with an unset zone id. -/
theorem claim3_cex_set_zone_id_rematched :
    update_dns ⟨[(String.toList "www.example.com", ⟨true, String.toList "OLD"⟩)], true,
        String.toList "1.2.3.4"⟩
      (some [⟨String.toList "example.com", String.toList "NEW"⟩]) (fun _ _ _ => false) =
    (⟨true, [⟨String.toList "NEW", ChangeAction.upsert, RrType.a,
        String.toList "www.example.com", String.toList "1.2.3.4", 300⟩]⟩,
     .ok ⟨[(String.toList "www.example.com", ⟨true, String.toList "NEW"⟩)], true,
        String.toList "1.2.3.4"⟩) := by
  decide

/-- **C3 amended.** In every pass that performs DNS work, the matcher runs for
*every* stale domain (its zone id, set or not, is overwritten by the new
match); on `NotFound` the domain keeps its previous zone id and stays stale;
and only a domain whose zone id is empty after matching is skipped by the
upsert step of that pass (no call is issued for it) — there is no permanent
skip: while the domain stays stale it is re-matched on each later pass. -/
theorem claim3_amended_stale_always_rematched (app : App) (zs : List HostedZone)
    (upsertOk : List Char → List Char → List Char → Bool) (tr : PassTrace) (app2 : App)
    (h : update_dns app (some zs) upsertOk = (tr, .ok app2))
    (hstale : (app.domains.any fun nd => nd.2.needs_update) = true) :
    app2.domains =
      (app.domains.map (matchDomain zs)).map (upsertDomain upsertOk app.public_ip) ∧
    (∀ nd : List Char × Domain, ∀ z, nd.2.needs_update = true →
      matchZone nd.1 zs = some z →
      matchDomain zs nd = (nd.1, { nd.2 with zone_id := z.id })) ∧
    (∀ nd : List Char × Domain, nd.2.needs_update = true → matchZone nd.1 zs = none →
      matchDomain zs nd = nd) ∧
    (∀ nd : List Char × Domain, nd.2.zone_id = [] →
      upsertDomain upsertOk app.public_ip nd = nd ∧ callOf app.public_ip nd = none) := by
  obtain ⟨_, _, hcases⟩ := update_dns_ok_cases app (some zs) upsertOk tr app2 h
  refine ⟨?_, fun nd z hs hz => matchDomain_stale_some zs nd z hs hz,
    fun nd hs hz => matchDomain_stale_none zs nd hs hz,
    fun nd hz => upsertDomain_skip upsertOk app.public_ip nd hz⟩
  rcases hcases with ⟨hf, _, _⟩ | ⟨_, hnone, _⟩ | ⟨zs2, _, hsome, hdom, _⟩
  · rw [hstale] at hf
    exact Bool.noConfusion hf
  · exact Option.noConfusion hnone
  · have hzs : zs2 = zs := by
      injection hsome with h2
      exact h2.symm
    rw [hzs] at hdom
    exact hdom

/-- Witness for the amended C3: a concrete pass in which the stale domain with
zone id `"OLD"` ends up with the freshly matched id `"NEW2"`. -/
theorem claim3_amended_witness :
    (⟨[(String.toList "www.example.com", ⟨true, String.toList "NEW2"⟩)], true,
        String.toList "9.9.9.9"⟩ : App).domains =
      (([(String.toList "www.example.com", ⟨true, String.toList "OLD"⟩)] :
          List (List Char × Domain)).map
        (matchDomain [⟨String.toList "example.com", String.toList "NEW2"⟩])).map
        (upsertDomain (fun _ _ _ => false) (String.toList "9.9.9.9")) :=
  (claim3_amended_stale_always_rematched
    ⟨[(String.toList "www.example.com", ⟨true, String.toList "OLD"⟩)], true,
        String.toList "9.9.9.9"⟩
    [⟨String.toList "example.com", String.toList "NEW2"⟩] (fun _ _ _ => false)
    ⟨true, [⟨String.toList "NEW2", ChangeAction.upsert, RrType.a,
        String.toList "www.example.com", String.toList "9.9.9.9", 300⟩]⟩
    ⟨[(String.toList "www.example.com", ⟨true, String.toList "NEW2"⟩)], true,
        String.toList "9.9.9.9"⟩
    (by decide) (by decide)).1

/-- **C6.** When no domain is stale, a pass performs no DNS work: `update_dns`
returns immediately with no zone listing and no upsert calls; and a daemon
pass that resolves the same IP as the stored one (all domains fresh after a
fully successful earlier pass) likewise makes no zone listing and no upsert
call. -/
theorem claim6_no_stale_no_work (app : App) (raw : Option (List Char))
    (zonesR : Option (List HostedZone))
    (upsertOk : List Char → List Char → List Char → Bool)
    (hfresh : (app.domains.any fun nd => nd.2.needs_update) = false) :
    update_dns app zonesR upsertOk = (⟨false, []⟩, .ok app) ∧
    (getIp raw = some app.public_ip →
      pass app raw zonesR upsertOk = (⟨false, []⟩, .ok app)) := by
  refine ⟨update_dns_no_stale app zonesR upsertOk hfresh, ?_⟩
  intro hip
  unfold pass
  rw [refresh_same_ip app raw hip]
  exact update_dns_no_stale app zonesR upsertOk hfresh

/-- Witness for C6: a fresh domain and an unchanged resolved IP produce a pass
with no zone listing and no upsert calls. -/
theorem claim6_witness :
    pass ⟨[(String.toList "a.example.com", ⟨false, String.toList "Z1"⟩)], true,
        String.toList "1.2.3.4"⟩ (some (String.toList "1.2.3.4"))
      (some [⟨String.toList "example.com", String.toList "Z1"⟩]) (fun _ _ _ => true) =
    (⟨false, []⟩,
     .ok ⟨[(String.toList "a.example.com", ⟨false, String.toList "Z1"⟩)], true,
        String.toList "1.2.3.4"⟩) :=
  (claim6_no_stale_no_work _ _ _ _ (by decide)).2 (by decide)

/-- **C8.** Startup validation: if any configured domain name is shorter than
3 characters or contains no dot, `App::new` fails and the AWS client is never
constructed; the app is constructed exactly when every name passes validation;
and the client is constructed exactly when the app is. -/
theorem claim8_domain_validation (names : List (List Char)) (daemon : Bool) :
    ((∃ n ∈ names, n.length < 3 ∨ n.contains '.' = false) →
      (appNew names daemon).app = none ∧ (appNew names daemon).clientConstructed = false) ∧
    ((appNew names daemon).app.isSome = true ↔
      ∀ n ∈ names, 3 ≤ n.length ∧ n.contains '.' = true) ∧
    ((appNew names daemon).clientConstructed = true ↔
      (appNew names daemon).app.isSome = true) := by
  refine ⟨?_, ?_, ?_⟩
  · intro hex
    have hn := (checkDomains_eq_none_iff names).mpr hex
    unfold appNew
    rw [hn]
    exact ⟨rfl, rfl⟩
  · unfold appNew
    cases hr : checkDomains names with
    | none =>
      simp only [Option.isSome_none]
      constructor
      · intro hfalse
        exact Bool.noConfusion hfalse
      · intro hall
        obtain ⟨n2, hmem, hbad⟩ := (checkDomains_eq_none_iff names).mp hr
        obtain ⟨hlen, hcont⟩ := hall n2 hmem
        rcases hbad with hb | hb
        · omega
        · rw [hcont] at hb
          exact Bool.noConfusion hb
    | some ds =>
      simp only [Option.isSome_some]
      constructor
      · intro _ n hmem
        by_contra hcon
        have hbad : n.length < 3 ∨ n.contains '.' = false := by
          by_cases h1 : 3 ≤ n.length
          · right
            by_cases h2 : n.contains '.' = true
            · exact absurd ⟨h1, h2⟩ hcon
            · cases hq : n.contains '.' with
              | false => rfl
              | true => exact absurd hq h2
          · left
            omega
        have hnone := (checkDomains_eq_none_iff names).mpr ⟨n, hmem, hbad⟩
        rw [hr] at hnone
        exact Option.noConfusion hnone
      · intro _
        trivial
  · unfold appNew
    cases hr : checkDomains names with
    | none => simp
    | some ds => simp

/-- Witness for C8 at the spec's Scenario D: the dotless argument
`"localhost"` makes startup fail before the client is constructed. -/
theorem claim8_witness :
    (appNew [String.toList "localhost"] false).app = none ∧
    (appNew [String.toList "localhost"] false).clientConstructed = false :=
  (claim8_domain_validation [String.toList "localhost"] false).1
    ⟨String.toList "localhost", by decide, by decide⟩

/-- **C5.** A domain is marked fresh only by a confirmed-successful upsert:
in any completed `update_dns`, each domain keeps its name, its staleness flag
is cleared only if it was already clear or the upsert oracle confirmed success
for its (final) zone id, its name, and the current IP; and a stale domain
whose upsert fails remains stale. -/
theorem claim5_fresh_only_after_success (app : App) (zonesR : Option (List HostedZone))
    (upsertOk : List Char → List Char → List Char → Bool) (tr : PassTrace) (app2 : App)
    (h : update_dns app zonesR upsertOk = (tr, .ok app2)) :
    app2.domains.length = app.domains.length ∧
    ∀ i (hi : i < app.domains.length) (hi2 : i < app2.domains.length),
      (app2.domains.get ⟨i, hi2⟩).1 = (app.domains.get ⟨i, hi⟩).1 ∧
      ((app2.domains.get ⟨i, hi2⟩).2.needs_update = false →
        (app.domains.get ⟨i, hi⟩).2.needs_update = false ∨
        upsertOk (app2.domains.get ⟨i, hi2⟩).2.zone_id (app.domains.get ⟨i, hi⟩).1
          app.public_ip = true) ∧
      ((app.domains.get ⟨i, hi⟩).2.needs_update = true →
        upsertOk (app2.domains.get ⟨i, hi2⟩).2.zone_id (app.domains.get ⟨i, hi⟩).1
          app.public_ip = false →
        (app2.domains.get ⟨i, hi2⟩).2.needs_update = true) := by
  obtain ⟨_, _, hcases⟩ := update_dns_ok_cases app zonesR upsertOk tr app2 h
  have hdom : app2.domains = app.domains ∨ ∃ zs, app2.domains =
      (app.domains.map (matchDomain zs)).map (upsertDomain upsertOk app.public_ip) := by
    rcases hcases with ⟨_, happ, _⟩ | ⟨_, _, happ, _⟩ | ⟨zs, _, _, hdom, _⟩
    · exact Or.inl (by rw [happ])
    · exact Or.inl (by rw [happ])
    · exact Or.inr ⟨zs, hdom⟩
  have key : ∀ nd nd2 : List Char × Domain,
      (nd2 = nd ∨ ∃ zs2, nd2 = upsertDomain upsertOk app.public_ip (matchDomain zs2 nd)) →
      nd2.1 = nd.1 ∧
      (nd2.2.needs_update = false → nd.2.needs_update = false ∨
        upsertOk nd2.2.zone_id nd.1 app.public_ip = true) ∧
      (nd.2.needs_update = true → upsertOk nd2.2.zone_id nd.1 app.public_ip = false →
        nd2.2.needs_update = true) := by
    rintro nd nd2 (rfl | ⟨zs2, rfl⟩)
    · exact ⟨rfl, fun hf => Or.inl hf, fun hs _ => hs⟩
    · refine ⟨?_, ?_, ?_⟩
      · rw [upsertDomain_fst, matchDomain_fst]
      · intro hf
        rcases upsertDomain_fresh_iff upsertOk app.public_ip (matchDomain zs2 nd) hf with
          hmf | hok
        · rw [matchDomain_needs] at hmf
          exact Or.inl hmf
        · rw [matchDomain_fst] at hok
          rw [upsertDomain_zone_id]
          exact Or.inr hok
      · intro hs hfail
        refine upsertDomain_fail_stale upsertOk app.public_ip (matchDomain zs2 nd) ?_ ?_
        · rw [matchDomain_needs]
          exact hs
        · rw [upsertDomain_zone_id] at hfail
          rw [matchDomain_fst]
          exact hfail
  rcases hdom with hsame | ⟨zs, hmap⟩
  · refine ⟨by rw [hsame], ?_⟩
    intro i hi hi2
    have hgi : app2.domains.get ⟨i, hi2⟩ = app.domains.get ⟨i, hi⟩ := by
      simp only [List.get_eq_getElem, hsame]
    rw [hgi]
    exact key (app.domains.get ⟨i, hi⟩) (app.domains.get ⟨i, hi⟩) (Or.inl rfl)
  · refine ⟨by rw [hmap]; simp, ?_⟩
    intro i hi hi2
    have hgi : app2.domains.get ⟨i, hi2⟩ =
        upsertDomain upsertOk app.public_ip (matchDomain zs (app.domains.get ⟨i, hi⟩)) := by
      simp only [List.get_eq_getElem, hmap, List.getElem_map]
    rw [hgi]
    exact key (app.domains.get ⟨i, hi⟩) _ (Or.inr ⟨zs, rfl⟩)

/-- Witness for C5: a pass whose single upsert fails leaves the domain stale. -/
theorem claim5_witness :
    ((⟨[(String.toList "w.example.com", ⟨true, String.toList "Z1"⟩)], true,
        String.toList "1.2.3.4"⟩ : App).domains.get ⟨0, by decide⟩).2.needs_update
      = true :=
  ((claim5_fresh_only_after_success
      ⟨[(String.toList "w.example.com", ⟨true, String.toList "Z1"⟩)], true,
        String.toList "1.2.3.4"⟩
      (some [⟨String.toList "example.com", String.toList "Z1"⟩]) (fun _ _ _ => false)
      ⟨true, [⟨String.toList "Z1", ChangeAction.upsert, RrType.a,
        String.toList "w.example.com", String.toList "1.2.3.4", 300⟩]⟩
      ⟨[(String.toList "w.example.com", ⟨true, String.toList "Z1"⟩)], true,
        String.toList "1.2.3.4"⟩
      (by decide)).2 0 (by decide) (by decide)).2.2 (by decide) (by decide)

/-- **C7.** Exit policy: a daemon pass never exits the process, whatever the
oracles return; in one-shot mode the pass exits with code 1 when IP resolution
fails, when zone listing fails while some domain is stale, when some stale
domain has no qualifying zone, and when the upsert for some stale domain whose
matched zone id is non-empty fails. -/
theorem claim7_exit_policy (app : App) (raw : Option (List Char))
    (zonesR : Option (List HostedZone))
    (upsertOk : List Char → List Char → List Char → Bool) :
    (app.is_daemon = true →
      ∃ tr app2, pass app raw zonesR upsertOk = (tr, .ok app2)) ∧
    (app.is_daemon = false →
      (getIp raw = none → pass app raw zonesR upsertOk = (⟨false, []⟩, .exited 1)) ∧
      (∀ ip, getIp raw = some ip →
        (app.domains.any fun nd => nd.2.needs_update) = true →
        (zonesR = none → (pass app raw zonesR upsertOk).2 = .exited 1) ∧
        (∀ zs, zonesR = some zs →
          ((∃ nd ∈ app.domains, nd.2.needs_update = true ∧ matchZone nd.1 zs = none) →
            (pass app raw zonesR upsertOk).2 = .exited 1) ∧
          ((∃ nd ∈ app.domains, ∃ z, nd.2.needs_update = true ∧
              matchZone nd.1 zs = some z ∧ z.id ≠ [] ∧ upsertOk z.id nd.1 ip = false) →
            (pass app raw zonesR upsertOk).2 = .exited 1)))) := by
  constructor
  · intro hd
    obtain ⟨app1, h1, hd1⟩ := refresh_daemon_ok app raw hd
    obtain ⟨tr, app2, h2⟩ := update_dns_daemon_ok app1 zonesR upsertOk hd1
    refine ⟨tr, app2, ?_⟩
    unfold pass
    rw [h1]
    exact h2
  · intro hd
    constructor
    · intro hnone
      unfold pass
      rw [refresh_none_oneshot app raw hd hnone]
    · intro ip hip hstale
      obtain ⟨app1, h1, hip1, hdm1, hmem1, hany1⟩ := refresh_getIp_some app raw ip hip
      have hd1 : app1.is_daemon = false := by rw [hdm1, hd]
      have hstale1 := hany1 hstale
      constructor
      · intro hzn
        subst hzn
        unfold pass
        rw [h1]
        show (update_dns app1 none upsertOk).2 = _
        unfold update_dns
        rw [hstale1]
        rw [if_neg (by simp)]
        dsimp only
        rw [if_neg (by simp [hd1])]
      · intro zs hzs
        subst hzs
        constructor
        · rintro ⟨nd, hmemA, hstl, hmz⟩
          have hmem2 := hmem1 nd hmemA hstl
          have hexit := matchLoop_oneshot_exit zs app1.domains ⟨nd, hmem2, hstl, hmz⟩
          unfold pass
          rw [h1]
          show (update_dns app1 (some zs) upsertOk).2 = .exited 1
          unfold update_dns
          rw [hstale1]
          rw [if_neg (by simp)]
          dsimp only
          rw [hd1, hexit]
        · rintro ⟨nd, hmemA, z, hstl, hmz, hzid, hfail⟩
          have hmem2 := hmem1 nd hmemA hstl
          unfold pass
          rw [h1]
          show (update_dns app1 (some zs) upsertOk).2 = .exited 1
          unfold update_dns
          rw [hstale1]
          rw [if_neg (by simp)]
          dsimp only
          rw [hd1]
          by_cases hex : ∃ nd2 ∈ app1.domains,
              nd2.2.needs_update = true ∧ matchZone nd2.1 zs = none
          · rw [matchLoop_oneshot_exit zs app1.domains hex]
          · have hallm : ∀ nd2 ∈ app1.domains, nd2.2.needs_update = true →
                matchZone nd2.1 zs ≠ none := by
              intro nd2 hm2 hs2 hn2
              exact hex ⟨nd2, hm2, hs2, hn2⟩
            rw [matchLoop_ok_of_all_match false zs app1.domains hallm]
            dsimp only
            have hmem3 : matchDomain zs nd ∈ app1.domains.map (matchDomain zs) :=
              List.mem_map.mpr ⟨nd, hmem2, rfl⟩
            have hmd : matchDomain zs nd = (nd.1, { nd.2 with zone_id := z.id }) :=
              matchDomain_stale_some zs nd z hstl hmz
            have hatt : attempted (matchDomain zs nd) = true := by
              rw [hmd]
              cases hzi : z.id with
              | nil => exact absurd hzi hzid
              | cons a t => simp [attempted, hstl, hzi]
            have hfail2 : upsertOk (matchDomain zs nd).2.zone_id (matchDomain zs nd).1
                app1.public_ip = false := by
              rw [hmd, hip1]
              exact hfail
            obtain ⟨calls, hexit2⟩ := upsertLoop_oneshot_exit upsertOk app1.public_ip
              (app1.domains.map (matchDomain zs)) ⟨matchDomain zs nd, hmem3, hatt, hfail2⟩
            rw [hexit2]

/-- Witness for C7: a one-shot pass whose IP resolution fails exits with
code 1. -/
theorem claim7_witness :
    pass ⟨[(String.toList "a.com", Domain.new)], false, []⟩ none none
      (fun _ _ _ => true) = (⟨false, []⟩, .exited 1) :=
  ((claim7_exit_policy ⟨[(String.toList "a.com", Domain.new)], false, []⟩ none none
      (fun _ _ _ => true)).2 rfl).1 rfl

/-- **C9.** Every Route 53 record-change request issued during a pass uses the
`Upsert` change action (never a plain create), record type `A`, and TTL 300,
independently of the configuration, the zone ids, the domain names, and the IP
values involved. -/
theorem claim9_upsert_shape (app : App) (raw : Option (List Char))
    (zonesR : Option (List HostedZone))
    (upsertOk : List Char → List Char → List Char → Bool) :
    ∀ c ∈ (pass app raw zonesR upsertOk).1.upsertCalls,
      c.action = ChangeAction.upsert ∧ c.rrtype = RrType.a ∧ c.ttl = 300 := by
  intro c hc
  unfold pass at hc
  cases h1 : refresh_public_ip app raw with
  | exited c2 =>
    rw [h1] at hc
    simp at hc
  | ok app1 =>
    rw [h1] at hc
    dsimp only at hc
    obtain ⟨zid, n, hce⟩ := update_dns_calls_shape app1 zonesR upsertOk c hc
    rw [hce]
    exact ⟨rfl, rfl, rfl⟩

/-- Witness for C9: the single request of a concrete successful pass has
action `Upsert`, type `A`, TTL 300. -/
theorem claim9_witness :
    (mkUpsertCall (String.toList "Z9") (String.toList "b.example.com")
        (String.toList "1.2.3.4")).action = ChangeAction.upsert ∧
    (mkUpsertCall (String.toList "Z9") (String.toList "b.example.com")
        (String.toList "1.2.3.4")).rrtype = RrType.a ∧
    (mkUpsertCall (String.toList "Z9") (String.toList "b.example.com")
        (String.toList "1.2.3.4")).ttl = 300 :=
  claim9_upsert_shape
    ⟨[(String.toList "b.example.com", ⟨true, []⟩)], true, String.toList "1.2.3.4"⟩
    (some (String.toList "1.2.3.4"))
    (some [⟨String.toList "example.com", String.toList "Z9"⟩]) (fun _ _ _ => true)
    (mkUpsertCall (String.toList "Z9") (String.toList "b.example.com")
      (String.toList "1.2.3.4"))
    (by decide)

/-- **C10.** The stored public IP is always either empty (at startup) or a
string that parses as IPv4: `App::new` initialises it empty; a successful
`get()` returns exactly the 16-character-truncated, whitespace-trimmed
response body and only if it parses as IPv4; a failed or unparsable response
leaves the stored value unchanged; and both the refresh step and a full pass
preserve validity of the stored IP. -/
theorem claim10_public_ip_invariant :
    (∀ (names : List (List Char)) (dm : Bool) (app : App),
      (appNew names dm).app = some app → app.public_ip = []) ∧
    (∀ body ip, getIp (some body) = some ip →
      ip = trimWs (body.take 16) ∧ parseIpv4 ip = true) ∧
    (∀ (app : App) raw app1, refresh_public_ip app raw = .ok app1 →
      validPublicIp app.public_ip = true → validPublicIp app1.public_ip = true) ∧
    (∀ (app : App) raw app1, getIp raw = none →
      refresh_public_ip app raw = .ok app1 → app1 = app) ∧
    (∀ (app : App) raw zonesR upsertOk tr app1,
      pass app raw zonesR upsertOk = (tr, .ok app1) →
      validPublicIp app.public_ip = true → validPublicIp app1.public_ip = true) := by
  refine ⟨?_, ?_, refresh_valid, refresh_none_eq, ?_⟩
  · intro names dm app h
    unfold appNew at h
    cases hr : checkDomains names with
    | none =>
      rw [hr] at h
      exact Option.noConfusion h
    | some ds =>
      rw [hr] at h
      have h2 : some (⟨ds, dm, []⟩ : App) = some app := h
      injection h2 with h3
      rw [← h3]
  · intro body ip h
    simp only [getIp] at h
    split at h
    case isTrue hp =>
      injection h with h2
      exact ⟨h2.symm, by rw [← h2]; exact hp⟩
    case isFalse hp => exact Option.noConfusion h
  · intro app raw zonesR upsertOk tr app1 h hv
    unfold pass at h
    cases h1 : refresh_public_ip app raw with
    | exited c =>
      rw [h1] at h
      simp at h
    | ok appm =>
      rw [h1] at h
      dsimp only at h
      have hvm := refresh_valid app raw appm h1 hv
      obtain ⟨hpub, _, _⟩ := update_dns_ok_cases appm zonesR upsertOk tr app1 h
      rw [hpub]
      exact hvm

/-- Witness for C10: a response body with surrounding whitespace is trimmed to
`"1.2.3.4"`, which parses as IPv4. -/
theorem claim10_witness :
    String.toList "1.2.3.4" = trimWs ((String.toList " 1.2.3.4 ").take 16) ∧
    parseIpv4 (String.toList "1.2.3.4") = true :=
  claim10_public_ip_invariant.2.1 (String.toList " 1.2.3.4 ")
    (String.toList "1.2.3.4") (by decide)

end Ddns
